import Mathlib

set_option maxHeartbeats 1000000

namespace ScaleIndexer

/-! Shallow embedding of `src/scatcov/scattering_network/scale_indexer.py`.

Scale paths are finite tuples of Python ints, modelled as `List Int`.
Fallible Python operations (dict lookups raising KeyError, list indexing
raising IndexError, division by zero, failed assertions) are modelled by
`Option`: `none` is an uncaught exception. Python dicts are modelled as
insertion-ordered association lists with unique keys. -/

/-- Python list read access `l[i]`: a negative index counts from the end,
an out-of-range index raises IndexError (modelled as `none`). -/
def pyGet (l : List α) (i : Int) : Option α :=
  if 0 ≤ i then l.get? i.toNat
  else if -i ≤ (l.length : Int) then l.get? (l.length - (-i).toNat) else none

/-- Python `range(n)` as a list of ints (empty when n ≤ 0). -/
def intRange (n : Int) : List Int :=
  (List.range n.toNat).map (fun (i : Nat) => (i : Int))

/-- Python `enumerate` with a start offset; `enumerate(l)` is `enumFrom 0 l`. -/
def enumFrom (k : Nat) : List α → List (Nat × α)
  | [] => []
  | a :: as => (k, a) :: enumFrom (k + 1) as

/-- `itertools.product` over a list of candidate lists, in Python's order
(rightmost factor varies fastest). -/
def pyProduct : List (List Int) → List (List Int)
  | [] => [[]]
  | xs :: rest => xs.flatMap (fun x => (pyProduct rest).map (fun p => x :: p))

/-- Python dict assignment `d[k] = v`: updates the value in place when the key
is present (keeping its insertion position), else appends the new binding. -/
def dictInsert [DecidableEq α] (d : List (α × β)) (k : α) (v : β) : List (α × β) :=
  if d.any (fun kv => decide (kv.1 = k)) then
    d.map (fun kv => if kv.1 = k then (kv.1, v) else kv)
  else d ++ [(k, v)]

/-- Python dict lookup `d[k]`; a missing key raises KeyError (`none`). -/
def dictGet [DecidableEq α] (d : List (α × β)) (k : α) : Option β :=
  (d.find? (fun kv => decide (kv.1 = k))).map (fun kv => kv.2)

/-- Builds a Python dict from an initial dict followed by a sequence of
assignments performed left to right (dict-comprehension / update semantics). -/
def dictOfList [DecidableEq α] (init : List (α × β)) (kvs : List (α × β)) : List (α × β) :=
  kvs.foldl (fun d kv => dictInsert d kv.1 kv.2) init

/-- Sequential effectful map: a Python list comprehension `[f(x) for x in l]`
where `f` may raise; the first exception aborts the whole comprehension. -/
def mapOpt (f : α → Option β) : List α → Option (List β)
  | [] => some []
  | a :: as => do
    let b ← f a
    let bs ← mapOpt f as
    pure (b :: bs)

/-- Python list comprehension `[x for x in l if p(x)]` with a fallible
predicate; the first exception aborts the whole comprehension. -/
def filterOpt (p : α → Option Bool) : List α → Option (List α)
  | [] => some []
  | a :: as => do
    let b ← p a
    let rest ← filterOpt p as
    if b then pure (a :: rest) else pure rest

/-- Embeds `ScaleIndexer.JQ`: `return self.J * self.Qs[r-1]` (Python list
indexing, so `r = 0` reads `Qs[-1]`, the last entry). -/
def JQ (J : Int) (Qs : List Int) (r : Int) : Option Int :=
  (pyGet Qs (r - 1)).map (fun q => J * q)

/-- Embeds the `all(i // self.Qs[order] < j // self.Qs[order+1] for order,
(i, j) in enumerate(zip(path[:-1], path[1:])))` generator inside
`ScaleIndexer.condition`: adjacent pairs are tested left to right with
short-circuiting; `Qs` lookups can raise IndexError and Python `//` raises
ZeroDivisionError on a zero divisor (Python `//` is floor division, `Int.fdiv`). -/
def condAdj (Qs : List Int) : Nat → List Int → Option Bool
  | _, [] => some true
  | _, [_] => some true
  | order, i :: j :: rest => do
    let qi ← pyGet Qs (order : Int)
    if qi = 0 then none
    else do
      let qj ← pyGet Qs ((order : Int) + 1)
      if qj = 0 then none
      else if Int.fdiv i qi < Int.fdiv j qj then condAdj Qs (order + 1) (j :: rest)
      else some false

/-- Embeds `ScaleIndexer.condition`: `(len(path) <= self.r_max) and all(...)`,
with Python short-circuit (the generator is not evaluated when the length
test fails). -/
def condition (Qs : List Int) (r_max : Int) (path : List Int) : Option Bool :=
  if (path.length : Int) ≤ r_max then condAdj Qs 0 path else some false

/-- Embeds the per-order table of `ScaleIndexer.create_sc_paths`: the list
`[range(self.JQ(o+1)+1) for o in range(r)]` of candidate coordinate ranges. -/
def sc_ranges (J : Int) (Qs : List Int) (r : Nat) : Option (List (List Int)) :=
  mapOpt (fun (o : Nat) => (JQ J Qs ((o : Int) + 1)).map (fun jq => intRange (jq + 1)))
    (List.range r)

/-- Embeds one loop iteration of `ScaleIndexer.create_sc_paths`:
`[p for p in product(*[range(self.JQ(o+1)+1) for o in range(r)]) if self.condition(p)]`. -/
def create_sc_paths_r (J : Int) (Qs : List Int) (r_max : Int) (r : Nat) :
    Option (List (List Int)) := do
  let ranges ← sc_ranges J Qs r
  filterOpt (condition Qs r_max) (pyProduct ranges)

/-- Embeds `ScaleIndexer.create_sc_paths`: the tables for every order
`r in range(1, r_max + 1)`. -/
def create_sc_paths (J : Int) (Qs : List Int) (r_max : Int) :
    Option (List (List (List Int))) :=
  mapOpt (fun i => create_sc_paths_r J Qs r_max (i + 1)) (List.range r_max.toNat)

/-- Embeds `ScaleIndexer.construct_path_coding_dicts`:
`coding = OrderedDict({(): 0})`, then merged with
`{tuple(path): i for i, path in enumerate(list(chain.from_iterable(self.sc_paths)))}`
(note: `enumerate` numbers the chained paths from 0), and
`decoding = OrderedDict({v: k for k, v in coding.items()})` (later bindings
overwrite earlier ones on a duplicated index value). -/
def construct_path_coding_dicts (sc_paths : List (List (List Int))) :
    List (List Int × Int) × List (Int × List Int) :=
  let chained := sc_paths.flatten
  let coding := dictOfList [([], 0)]
    ((enumFrom 0 chained).map (fun (ip : Nat × List Int) => (ip.2, (ip.1 : Int))))
  let decoding := dictOfList [] (coding.map (fun kv => (kv.2, kv.1)))
  (coding, decoding)

/-- Embeds the sentinel truncation at the top of `ScaleIndexer.path_to_idx`:
when the last entry is -1, the path is cut at the first occurrence of -1
(`i0 = np.argmax(path == -1); path = path[:i0]`). -/
def truncate_sentinel (path : List Int) : List Int :=
  if 0 < path.length ∧ path.getLast? = some (-1) then
    path.takeWhile (fun x => x ≠ -1)
  else path

/-- Embeds `ScaleIndexer.path_to_idx`: sentinel truncation followed by the
coding-dict lookup `self.p_coding[tuple(path)]` (KeyError propagates). -/
def path_to_idx (p_coding : List (List Int × Int)) (path : List Int) : Option Int :=
  dictGet p_coding (truncate_sentinel path)

/-- Embeds `ScaleIndexer.idx_to_path` with the default `squeeze=True`:
`-1` returns the empty tuple, otherwise `self.p_decoding[idx]`
(KeyError propagates). -/
def idx_to_path (p_decoding : List (Int × List Int)) (idx : Int) : Option (List Int) :=
  if idx = -1 then some [] else dictGet p_decoding idx

/-- Embeds `ScaleIndexer.idx_to_path` with `squeeze=False`: the decoded path is
right-padded with `pd.NA` (modelled as `none`) up to `r_max` slots; the `-1`
branch returns the unpadded empty tuple before the squeeze test is reached. -/
def idx_to_path_padded (p_decoding : List (Int × List Int)) (r_max : Int) (idx : Int) :
    Option (List (Option Int)) :=
  if idx = -1 then some [] else
    (dictGet p_decoding idx).map
      (fun p => p.map some ++ List.replicate (r_max - (p.length : Int)).toNat none)

/-- Embeds `ScaleIndexer.r`: the length of the decoded path. -/
def r (p_decoding : List (Int × List Int)) (idx : Int) : Option Int :=
  (idx_to_path p_decoding idx).map (fun p => (p.length : Int))

/-- Embeds `ScaleIndexer.is_low_pass`:
`self.idx_to_path(idx)[-1] >= self.JQ(self.r(idx))`, evaluated left to right:
the decode, then the `[-1]` access (IndexError on an empty tuple), then the
re-decode inside `r`, then the `JQ` lookup. -/
def is_low_pass (J : Int) (Qs : List Int) (p_decoding : List (Int × List Int))
    (idx : Int) : Option Bool := do
  let p ← idx_to_path p_decoding idx
  let last ← p.getLast?
  let rr ← r p_decoding idx
  let jq ← JQ J Qs rr
  pure (decide (last ≥ jq))

/-- Embeds `ScaleIndexer.create_sc_idces`: per order, the indices of that
order's paths through `path_to_idx`. -/
def create_sc_idces (p_coding : List (List Int × Int))
    (sc_paths : List (List (List Int))) : Option (List (List Int)) :=
  mapOpt (fun tbl => mapOpt (fun p => path_to_idx p_coding p) tbl) sc_paths

/-- Embeds `ScaleIndexer.compute_low_pass_mask`: for each of the first three
order tables, `paths[:, -1] == self.JQ(order+1)`; numpy turns an empty table
into a one-dimensional empty array, on which the column access `[:, -1]`
raises IndexError. -/
def compute_low_pass_mask (J : Int) (Qs : List Int)
    (sc_paths : List (List (List Int))) : Option (List (List Bool)) :=
  mapOpt (fun (otbl : Nat × List (List Int)) => do
      let lastCol ← if otbl.2.isEmpty then none
        else mapOpt (fun p => p.getLast?) otbl.2
      let jq ← JQ J Qs ((otbl.1 : Int) + 1)
      pure (lastCol.map (fun x => decide (x = jq))))
    (enumFrom 0 (sc_paths.take 3))

/-- Strict lexicographic order on Python int tuples of equal or unequal
length as used by Python's `t1 < t2` on tuples. -/
def tupleLt : List Int → List Int → Bool
  | [], [] => false
  | [], _ :: _ => true
  | _ :: _, [] => false
  | a :: as, b :: bs => if a < b then true else if b < a then false else tupleLt as bs

/-- Embeds the local `compare` of `ScaleIndexer.checks` as the int CPython
derives from its bool result (True is 1, False is 0):
`(len(t1) == len(t2) and t1 < t2) or (len(t1) < len(t2))`. -/
def compare_fn (t1 t2 : List Int) : Int :=
  if (t1.length = t2.length ∧ tupleLt t1 t2 = true) ∨ t1.length < t2.length then 1 else 0

/-- Stable insertion sort: each element is inserted after every element it is
not strictly below. Both sorts performed by `checks` are stable on the inputs
arising here (CPython's sort is Timsort, stable; numpy's default quicksort
runs as insertion sort on the short arrays these instances produce). -/
def insertSorted (lt : α → α → Bool) (x : α) : List α → List α
  | [] => [x]
  | y :: ys => if lt x y then x :: y :: ys else y :: insertSorted lt x ys

/-- Stable sort of a whole list, inserting left to right. -/
def stableSort (lt : α → α → Bool) (l : List α) : List α :=
  l.foldl (fun acc x => insertSorted lt x acc) []

/-- Embeds `np.argsort` on an int vector as the stable argsort (ties keep
positional order, matching numpy's insertion sort on short inputs). -/
def argsort (vals : List Int) : List Nat :=
  (stableSort (fun (a b : Nat × Int) => decide (a.2 < b.2 ∨ (a.2 = b.2 ∧ a.1 < b.1)))
    (enumFrom 0 vals)).map (fun iv => iv.1)

/-- Embeds numpy boolean-mask row selection `rows[~mask]`: keep the rows whose
mask entry is false. -/
def maskFilterNeg (rows : List (List Int)) (mask : List Bool) : List (List Int) :=
  (rows.zip mask).filterMap (fun rm => if rm.2 then none else some rm.1)

/-- Embeds `ScaleIndexer.checks`. The first assertion compares the paths
sorted by `cmp_to_key(compare)` (`compare` returns a bool, so the derived
`__lt__`, `compare(a, b) < 0`, is always false and Timsort leaves the list
unchanged) against the paths reordered by the argsort of the coding values.
The second block, entered only when every Q is 1 and `r_max >= 2`, compares
`np.unique(sc_paths[1][:, :-1], axis=0)` (sorted deduplicated truncations)
with the non-low-pass rows of `sc_paths[0]`. A failed `assert` raises
(`some false` here, failing construction); numpy raises IndexError on the
column access when a table is empty. -/
def checks (Qs : List Int) (r_max : Int) (sc_paths : List (List (List Int)))
    (p_coding : List (List Int × Int)) (low_pass_mask : List (List Bool)) :
    Option Bool := do
  let vals := p_coding.map (fun kv => kv.2)
  let paths := p_coding.map (fun kv => kv.1)
  let srt := stableSort (fun a b => decide (compare_fn a b < 0)) paths
  let reord := (argsort vals).map (fun i => paths.getD i [])
  if srt = reord then
    if Qs.all (fun q => decide (q = 1)) then
      if 2 ≤ r_max then do
        let tbl2 ← sc_paths.get? 1
        let tbl1 ← sc_paths.get? 0
        let mask0 ← low_pass_mask.get? 0
        let trimmed ← if tbl2.isEmpty then none else some (tbl2.map List.dropLast)
        let collapsed := stableSort tupleLt trimmed.dedup
        let previous := maskFilterNeg tbl1 mask0
        pure (collapsed = previous)
      else pure true
    else pure true
  else pure false

/-- The fields stored by `ScaleIndexer.__init__` after a successful
construction. -/
structure Indexer where
  J : Int
  Qs : List Int
  r_max : Int
  sc_paths : List (List (List Int))
  p_coding : List (List Int × Int)
  p_decoding : List (Int × List Int)
  sc_idces : List (List Int)
  low_pass_mask : List (List Bool)
deriving DecidableEq

/-- Embeds `ScaleIndexer.__init__`: path enumeration, coding dicts, per-order
index tables, low-pass masks, then the self-checks, in source order; any
uncaught exception or failed assertion aborts construction (`none`). -/
def construct (J : Int) (Qs : List Int) (r_max : Int) : Option Indexer := do
  let sc_paths ← create_sc_paths J Qs r_max
  let cd := construct_path_coding_dicts sc_paths
  let sc_idces ← create_sc_idces cd.1 sc_paths
  let low_pass_mask ← compute_low_pass_mask J Qs sc_paths
  let ok ← checks Qs r_max sc_paths cd.1 low_pass_mask
  if ok then pure ⟨J, Qs, r_max, sc_paths, cd.1, cd.2, sc_idces, low_pass_mask⟩
  else none

/-- The coding dict a `ScaleIndexer(J, Qs, r_max)` would hold. -/
def coding_of (J : Int) (Qs : List Int) (r_max : Int) :
    Option (List (List Int × Int)) :=
  (create_sc_paths J Qs r_max).map (fun sp => (construct_path_coding_dicts sp).1)

/-- The decoding dict a `ScaleIndexer(J, Qs, r_max)` would hold. -/
def decoding_of (J : Int) (Qs : List Int) (r_max : Int) :
    Option (List (Int × List Int)) :=
  (create_sc_paths J Qs r_max).map (fun sp => (construct_path_coding_dicts sp).2)

/-- Total Boolean reading of the admissibility generator of
`ScaleIndexer.condition`, used to state what `condAdj` computes when every
`Qs` access is in range and every divisor is nonzero. -/
def adjOK (Qs : List Int) : Nat → List Int → Bool
  | _, [] => true
  | _, [_] => true
  | o, i :: j :: rest =>
    decide (Int.fdiv i (Qs.getD o 0) < Int.fdiv j (Qs.getD (o + 1) 0)) &&
      adjOK Qs (o + 1) (j :: rest)

/-- The value of the candidate-range table of `create_sc_paths` when every
`Qs` access is in range: one `range(J*Qs[o]+1)` per coordinate. -/
def rangesOf (J : Int) (Qs : List Int) (r : Nat) : List (List Int) :=
  (List.range r).map (fun o => intRange (J * Qs.getD o 0 + 1))

/-- The value of the order-r path table of `create_sc_paths` when every `Qs`
access is in range and densities are positive: the admissibility-filtered
cartesian product. -/
def tblFull (J : Int) (Qs : List Int) (r : Nat) : List (List Int) :=
  (pyProduct (rangesOf J Qs r)).filter (fun p => adjOK Qs 0 p)

/-- The coding dict the construction builds for `J = 3, Qs = [1], r_max = 1`:
because `enumerate` numbers the chained paths from 0, the first order-1 path
`(0,)` receives the same index 0 as the seeded empty path. -/
def cfgCoding : List (List Int × Int) := [([], 0), ([0], 0), ([1], 1), ([2], 2), ([3], 3)]

/-- The decoding dict for `J = 3, Qs = [1], r_max = 1`: the inversion
`{v: k for k, v in coding.items()}` lets the later binding `(0,) -> 0`
overwrite `() -> 0`, so no index decodes to the empty path. -/
def cfgDecoding : List (Int × List Int) := [(0, [0]), (1, [1]), (2, [2]), (3, [3])]

/-- C1: evaluated at `J = 3, Qs = [1], r_max = 1`, the round trip
`idx_to_path(path_to_idx(()))` returns the path `(0,)`, not the empty path:
`enumerate` numbers the enumerated paths from 0, so `(0,)` collides with the
empty path at index 0 and the decoding dict maps 0 back to `(0,)`. The maps
are therefore not mutually inverse bijections as the claim states. -/
theorem claim1_roundtrip_at_empty_path_eval :
    (coding_of 3 [1] 1).bind (fun c => (decoding_of 3 [1] 1).bind (fun d =>
      (path_to_idx c []).bind (fun i => idx_to_path d i))) = some [0] ∧
    ([0] : List Int) ≠ [] := by decide

/-- C2: evaluated at `J = 3, Qs = [1], r_max = 1`: `path_to_idx(()) = 0` and
`idx_to_path(-1) = ()` hold, but `idx_to_path(0)` returns `(0,)` instead of
the empty tuple, and the order-1 paths `(0,),(1,),...` receive the
consecutive integers starting at 0, not at 1, contradicting the claim. -/
theorem claim2_sentinel_and_numbering_eval :
    coding_of 3 [1] 1 = some cfgCoding ∧
    decoding_of 3 [1] 1 = some cfgDecoding ∧
    path_to_idx cfgCoding [] = some 0 ∧
    idx_to_path cfgDecoding (-1) = some [] ∧
    idx_to_path cfgDecoding 0 = some [0] ∧
    path_to_idx cfgCoding [0] = some 0 ∧
    path_to_idx cfgCoding [1] = some 1 := by decide

/-- C3: evaluated at `J = 3, Qs = [1], r_max = 1`: the admissible paths `()`
and `(0,)` have `len(()) < len((0,))` yet both receive index 0, so the
monotone order-then-lexicographic numbering fails on the full enumeration
with the empty path included. -/
theorem claim3_monotone_numbering_eval :
    coding_of 3 [1] 1 = some cfgCoding ∧
    path_to_idx cfgCoding [] = some 0 ∧
    path_to_idx cfgCoding [0] = some 0 ∧
    List.length ([] : List Int) < List.length [(0 : Int)] := by decide

/-- C4: evaluated at `J = 3, Qs = [1], r_max = 1`: `JQ(1) = 3` and the
enumerated order-1 paths are `(0,),(1,),(2,),(3,)` as claimed, but their
indices are 0,1,2,3 rather than 1,2,3,4, and `is_low_pass(4)` raises
KeyError (index 4 is never assigned) instead of returning true; the
low-pass path `(3,)` sits at index 3, where `is_low_pass` is true. -/
theorem claim4_concrete_scenario_eval :
    JQ 3 [1] 1 = some 3 ∧
    create_sc_paths 3 [1] 1 = some [[[0], [1], [2], [3]]] ∧
    path_to_idx cfgCoding [0] = some 0 ∧
    path_to_idx cfgCoding [1] = some 1 ∧
    path_to_idx cfgCoding [2] = some 2 ∧
    path_to_idx cfgCoding [3] = some 3 ∧
    is_low_pass 3 [1] cfgDecoding 4 = none ∧
    is_low_pass 3 [1] cfgDecoding 3 = some true ∧
    is_low_pass 3 [1] cfgDecoding 1 = some false ∧
    r cfgDecoding 3 = some 1 := by decide

/-- C8 counterexample: `J = 0` is a non-positive octave count, yet
`ScaleIndexer(0, [1], 1)` constructs successfully (all self-checks pass) and
the resulting indexer answers queries, refuting the claim that malformed
parameters fail with a configuration error and never yield a usable indexer. -/
theorem claim8_no_validation_counterexample :
    (construct 0 [1] 1).isSome = true ∧
    (construct 0 [1] 1).bind (fun ix => idx_to_path ix.p_decoding 0) = some [0] := by decide

/-- C8 amended: the constructor performs no parameter validation, so no
malformed configuration is rejected before enumeration begins. An octave
count of zero (`J = 0`) and a max order of zero (`r_max = 0`) are accepted
and construction succeeds, yielding a queryable indexer. A negative octave
count (`J = -1`) does make construction fail, but only after enumeration:
the order-1 enumeration itself succeeds with an empty table and the
IndexError arises in `compute_low_pass_mask` on that empty table's column
access. When `Qs` has fewer entries than `r_max`, construction fails with an
IndexError raised inside the path enumeration (`create_sc_paths` itself
fails). In no case does a configuration check precede enumeration. -/
theorem claim8_no_validation_amended :
    (construct 0 [1] 1).isSome = true ∧
    (construct 3 [1] 0).isSome = true ∧
    construct (-1) [1] 1 = none ∧
    create_sc_paths (-1) [1] 1 = some [[]] ∧
    compute_low_pass_mask (-1) [1] [[]] = none ∧
    construct 1 [1] 2 = none ∧
    create_sc_paths 1 [1] 2 = none := by decide

/-- C9: with `J = 4, Qs = [1, 1], r_max = 2`, truncating every enumerated
order-2 path to its first coordinate and deduplicating yields exactly the
order-1 paths whose last coordinate is strictly below `JQ(1) = 4` — here
the two sides even agree as ordered lists, hence as sets. -/
theorem claim9_collapse_uniform_density :
    (create_sc_paths 4 [1, 1] 2).map (fun L =>
        ((L.getD 1 []).map (fun p => p.dropLast)).dedup) =
      (create_sc_paths 4 [1, 1] 2).map (fun L =>
        (L.getD 0 []).filter (fun p => decide (p.getLastD 0 < 4))) ∧
    JQ 4 [1, 1] 1 = some 4 := by decide

/-- C10: whenever an index decodes to the empty path, `is_low_pass` returns
no boolean: the `[-1]` access on the empty tuple is out of bounds, so the
call fails with an IndexError (modelled as `none`) for every configuration. -/
theorem claim10_is_low_pass_empty_path (J : Int) (Qs : List Int)
    (p_decoding : List (Int × List Int)) (idx : Int)
    (h : idx_to_path p_decoding idx = some []) :
    is_low_pass J Qs p_decoding idx = none := by
  simp [is_low_pass, h]

/-- C10 witness: the decoding dict of `ScaleIndexer(3, [1], 0)` maps index 0
to the empty path, and `is_low_pass(0)` indeed fails there. -/
theorem claim10_witness :
    idx_to_path [(0, ([] : List Int))] 0 = some [] ∧
    is_low_pass 3 [1] [(0, ([] : List Int))] 0 = none :=
  ⟨by decide, claim10_is_low_pass_empty_path 3 [1] [(0, [])] 0 (by decide)⟩

theorem pyGet_natCast (l : List α) (n : Nat) : pyGet l (n : Int) = l.get? n := by
  simp [pyGet]

theorem get?_eq_some_getD {l : List α} {n : Nat} (d : α) (h : n < l.length) :
    l.get? n = some (l.getD n d) := by
  simp [List.getD_eq_getElem?_getD, List.get?_eq_getElem?, List.getElem?_eq_getElem h]

theorem mem_intRange {n x : Int} : x ∈ intRange n ↔ 0 ≤ x ∧ x < n := by
  simp only [intRange, List.mem_map, List.mem_range]
  constructor
  · rintro ⟨k, hk, rfl⟩; omega
  · rintro ⟨h0, h1⟩; exact ⟨x.toNat, by omega, by omega⟩

theorem nodup_intRange (n : Int) : (intRange n).Nodup :=
  List.Nodup.map (fun a b hab => by exact_mod_cast hab) (List.nodup_range _)

theorem mapOpt_eq_some_map {f : α → Option β} {g : α → β} :
    ∀ {l : List α}, (∀ a ∈ l, f a = some (g a)) → mapOpt f l = some (l.map g)
  | [], _ => rfl
  | a :: as, h => by
    have ha := h a (List.mem_cons_self a as)
    have htl := mapOpt_eq_some_map (fun x hx => h x (List.mem_cons_of_mem a hx))
    simp [mapOpt, ha, htl]

theorem filterOpt_eq_some_filter {p : α → Option Bool} {q : α → Bool} :
    ∀ {l : List α}, (∀ a ∈ l, p a = some (q a)) → filterOpt p l = some (l.filter q)
  | [], _ => rfl
  | a :: as, h => by
    have ha := h a (List.mem_cons_self a as)
    have htl := filterOpt_eq_some_filter (fun x hx => h x (List.mem_cons_of_mem a hx))
    cases hqa : q a <;> simp [filterOpt, ha, htl, List.filter_cons, hqa]

theorem mem_pyProduct : ∀ {ls : List (List Int)} {p : List Int},
    p ∈ pyProduct ls ↔ List.Forall₂ (fun x xs => x ∈ xs) p ls
  | [], p => by
    simp [pyProduct, List.forall₂_nil_right_iff]
  | xs :: rest, p => by
    simp only [pyProduct, List.mem_flatMap, List.mem_map]
    constructor
    · rintro ⟨x, hx, q, hq, rfl⟩
      exact List.Forall₂.cons hx (mem_pyProduct.mp hq)
    · intro h
      cases h with
      | cons hx hrest => exact ⟨_, hx, _, mem_pyProduct.mpr hrest, rfl⟩

theorem getD_mem {l : List α} {n : Nat} (d : α) (h : n < l.length) : l.getD n d ∈ l := by
  rw [List.getD_eq_getElem?_getD, List.getElem?_eq_getElem h]
  simp only [Option.getD_some]
  exact List.getElem_mem h

theorem condAdj_eq_adjOK (Qs : List Int) (hpos : ∀ q ∈ Qs, 0 < q) :
    ∀ (p : List Int) (o : Nat), o + p.length ≤ Qs.length →
      condAdj Qs o p = some (adjOK Qs o p) := by
  intro p
  induction p with
  | nil => intro o h; rfl
  | cons i tail ih =>
    intro o h
    cases tail with
    | nil => rfl
    | cons j rest =>
      have hlen : (i :: j :: rest).length = rest.length + 2 := by simp
      have ho : o < Qs.length := by omega
      have ho1 : o + 1 < Qs.length := by
        rw [hlen] at h; omega
      have hqi : pyGet Qs (o : Int) = some (Qs.getD o 0) := by
        rw [pyGet_natCast]; exact get?_eq_some_getD 0 ho
      have hqj : pyGet Qs ((o : Int) + 1) = some (Qs.getD (o + 1) 0) := by
        have e : ((o : Int) + 1) = ((o + 1 : Nat) : Int) := by push_cast; ring
        rw [e, pyGet_natCast]; exact get?_eq_some_getD 0 ho1
      have hqi0 : ¬ Qs.getD o 0 = 0 := by
        have := hpos (Qs.getD o 0) (getD_mem 0 ho)
        omega
      have hqj0 : ¬ Qs.getD (o + 1) 0 = 0 := by
        have := hpos (Qs.getD (o + 1) 0) (getD_mem 0 ho1)
        omega
      have hstep : condAdj Qs o (i :: j :: rest) =
          (pyGet Qs (o : Int)).bind (fun qi =>
            if qi = 0 then none
            else (pyGet Qs ((o : Int) + 1)).bind (fun qj =>
              if qj = 0 then none
              else if Int.fdiv i qi < Int.fdiv j qj then condAdj Qs (o + 1) (j :: rest)
              else some false)) := rfl
      rw [hstep, hqi, Option.some_bind, if_neg hqi0, hqj, Option.some_bind, if_neg hqj0]
      rw [show adjOK Qs o (i :: j :: rest) =
        (decide (Int.fdiv i (Qs.getD o 0) < Int.fdiv j (Qs.getD (o + 1) 0)) &&
          adjOK Qs (o + 1) (j :: rest)) from rfl]
      by_cases hc : Int.fdiv i (Qs.getD o 0) < Int.fdiv j (Qs.getD (o + 1) 0)
      · rw [if_pos hc, decide_eq_true hc, Bool.true_and]
        exact ih (o + 1) (by rw [hlen] at h; simp; omega)
      · rw [if_neg hc, decide_eq_false hc, Bool.false_and]

theorem adjOK_eq_true_iff (Qs : List Int) :
    ∀ (p : List Int) (o : Nat),
      adjOK Qs o p = true ↔
        ∀ t, t + 1 < p.length →
          Int.fdiv (p.getD t 0) (Qs.getD (o + t) 0) <
            Int.fdiv (p.getD (t + 1) 0) (Qs.getD (o + t + 1) 0) := by
  intro p
  induction p with
  | nil => intro o; simp [adjOK]
  | cons i tail ih =>
    intro o
    cases tail with
    | nil => simp [adjOK]
    | cons j rest =>
      rw [adjOK, Bool.and_eq_true, decide_eq_true_iff, ih (o + 1)]
      constructor
      · rintro ⟨h0, hrest⟩ t ht
        cases t with
        | zero => simpa using h0
        | succ s =>
          have hb : s + 1 < (j :: rest).length := by simp at ht ⊢; omega
          have := hrest s hb
          have e1 : o + 1 + s = o + (s + 1) := by omega
          rw [e1] at this
          simpa using this
      · intro hall
        constructor
        · have := hall 0 (by simp)
          simpa using this
        · intro s hs
          have hb : s + 1 + 1 < (i :: j :: rest).length := by simp at hs ⊢; omega
          have := hall (s + 1) hb
          have e1 : o + 1 + s = o + (s + 1) := by omega
          rw [e1]
          simpa using this

theorem get_eq_getD {l : List α} {n : Nat} (h : n < l.length) (d : α) :
    l.get ⟨n, h⟩ = l.getD n d := by
  rw [List.getD_eq_getElem?_getD, List.getElem?_eq_getElem h]
  simp [List.get_eq_getElem]

theorem rangesOf_length (J : Int) (Qs : List Int) (r : Nat) :
    (rangesOf J Qs r).length = r := by
  simp [rangesOf]

theorem rangesOf_get (J : Int) (Qs : List Int) (r : Nat) {t : Nat}
    (h : t < (rangesOf J Qs r).length) :
    (rangesOf J Qs r).get ⟨t, h⟩ = intRange (J * Qs.getD t 0 + 1) := by
  simp [rangesOf, List.get_eq_getElem]

theorem sc_ranges_eq (J : Int) (Qs : List Int) (r : Nat) (hQ : r ≤ Qs.length) :
    sc_ranges J Qs r = some (rangesOf J Qs r) := by
  unfold sc_ranges rangesOf
  apply mapOpt_eq_some_map
  intro o ho
  rw [List.mem_range] at ho
  have hoQ : o < Qs.length := by omega
  have hjq : JQ J Qs ((o : Int) + 1) = some (J * Qs.getD o 0) := by
    unfold JQ
    have e : ((o : Int) + 1 - 1) = ((o : Nat) : Int) := by omega
    rw [e, pyGet_natCast, get?_eq_some_getD 0 hoQ]
    rfl
  rw [hjq]
  rfl

theorem create_sc_paths_r_eq (J : Int) (Qs : List Int) (r_max : Int) (r : Nat)
    (hrmax : (r : Int) ≤ r_max) (hQ : r ≤ Qs.length) (hpos : ∀ q ∈ Qs, 0 < q) :
    create_sc_paths_r J Qs r_max r = some (tblFull J Qs r) := by
  have hstep : create_sc_paths_r J Qs r_max r =
      (sc_ranges J Qs r).bind
        (fun ranges => filterOpt (condition Qs r_max) (pyProduct ranges)) := rfl
  rw [hstep, sc_ranges_eq J Qs r hQ, Option.some_bind]
  unfold tblFull
  apply filterOpt_eq_some_filter
  intro p hp
  have hlen : p.length = r := by
    have h2 := (mem_pyProduct.mp hp).length_eq
    simpa [rangesOf] using h2
  unfold condition
  rw [if_pos (by rw [hlen]; exact_mod_cast hrmax)]
  exact condAdj_eq_adjOK Qs hpos p 0 (by omega)

theorem mem_tblFull (J : Int) (Qs : List Int) (r : Nat) (p : List Int) :
    p ∈ tblFull J Qs r ↔
      p.length = r ∧
      (∀ t, t < r → 0 ≤ p.getD t 0 ∧ p.getD t 0 < J * Qs.getD t 0 + 1) ∧
      (∀ t, t + 1 < r →
        Int.fdiv (p.getD t 0) (Qs.getD t 0) <
          Int.fdiv (p.getD (t + 1) 0) (Qs.getD (t + 1) 0)) := by
  unfold tblFull
  rw [List.mem_filter, mem_pyProduct, List.forall₂_iff_get]
  constructor
  · rintro ⟨⟨hlen, hget⟩, hadj⟩
    rw [rangesOf_length] at hlen
    refine ⟨hlen, ?_, ?_⟩
    · intro t ht
      have h1 : t < p.length := by omega
      have h2 : t < (rangesOf J Qs r).length := by rw [rangesOf_length]; omega
      have hm := hget t h1 h2
      rw [rangesOf_get J Qs r h2, mem_intRange, get_eq_getD h1 0] at hm
      exact ⟨hm.1, by omega⟩
    · intro t ht
      have := (adjOK_eq_true_iff Qs p 0).mp (by simpa using hadj) t (by omega)
      simpa using this
  · rintro ⟨hlen, hbnd, hadj⟩
    refine ⟨⟨by rw [rangesOf_length, hlen], ?_⟩, ?_⟩
    · intro t h1 h2
      have ht : t < r := by omega
      rw [rangesOf_get J Qs r h2, mem_intRange, get_eq_getD h1 0]
      have := hbnd t ht
      exact ⟨this.1, by omega⟩
    · have : adjOK Qs 0 p = true := by
        rw [adjOK_eq_true_iff Qs p 0]
        intro t ht
        have := hadj t (by omega)
        simpa using this
      simpa using this

/-- C5: for every order r between 1 and `r_max` (with enough positive density
entries), the enumerated order-r paths are exactly the length-r tuples whose
k-th coordinate lies in `range(J*Qs[k-1]+1)` and whose adjacent pairs satisfy
`j_k // Qs[k-1] < j_{k+1} // Qs[k]`; no other tuple is enumerated. -/
theorem claim5_admissibility_closure (J : Int) (Qs : List Int) (r_max : Int) (r : Nat)
    (hr : 1 ≤ r) (hrmax : (r : Int) ≤ r_max) (hQ : r ≤ Qs.length)
    (hpos : ∀ q ∈ Qs, 0 < q) :
    ∃ L, create_sc_paths_r J Qs r_max r = some L ∧
      ∀ p : List Int, p ∈ L ↔
        (p.length = r ∧
         (∀ t, t < r → 0 ≤ p.getD t 0 ∧ p.getD t 0 < J * Qs.getD t 0 + 1) ∧
         (∀ t, t + 1 < r →
           Int.fdiv (p.getD t 0) (Qs.getD t 0) <
             Int.fdiv (p.getD (t + 1) 0) (Qs.getD (t + 1) 0))) :=
  ⟨tblFull J Qs r, create_sc_paths_r_eq J Qs r_max r hrmax hQ hpos,
    fun p => mem_tblFull J Qs r p⟩

/-- C5 witness at `J = 3, Qs = [1], r_max = 1, r = 1`. -/
theorem claim5_witness :
    (1 ≤ 1) ∧ ((1 : Nat) : Int) ≤ 1 ∧ 1 ≤ List.length [(1 : Int)] ∧
    (∀ q ∈ [(1 : Int)], 0 < q) ∧
    (∃ L, create_sc_paths_r 3 [1] 1 1 = some L ∧
      ∀ p : List Int, p ∈ L ↔
        (p.length = 1 ∧
         (∀ t, t < 1 → 0 ≤ p.getD t 0 ∧ p.getD t 0 < 3 * [(1 : Int)].getD t 0 + 1) ∧
         (∀ t, t + 1 < 1 →
           Int.fdiv (p.getD t 0) ([(1 : Int)].getD t 0) <
             Int.fdiv (p.getD (t + 1) 0) ([(1 : Int)].getD (t + 1) 0)))) :=
  ⟨le_refl 1, by decide, by decide, by decide,
    claim5_admissibility_closure 3 [1] 1 1 (by decide) (by decide) (by decide) (by decide)⟩

theorem enumFrom_cons (k : Nat) (a : α) (as : List α) :
    enumFrom k (a :: as) = (k, a) :: enumFrom (k + 1) as := rfl

theorem dictGet_eq_none_iff [DecidableEq α] (d : List (α × β)) (k : α) :
    dictGet d k = none ↔ k ∉ d.map Prod.fst := by
  unfold dictGet
  rw [Option.map_eq_none', List.find?_eq_none]
  simp only [decide_eq_true_eq, List.mem_map]
  constructor
  · intro h hmem
    obtain ⟨kv, hkv, he⟩ := hmem
    exact h kv hkv he
  · intro h kv hkv he
    exact h ⟨kv, hkv, he⟩

theorem dictGet_cons_of_ne [DecidableEq α] {kv : α × β} {d : List (α × β)} {k : α}
    (h : kv.1 ≠ k) : dictGet (kv :: d) k = dictGet d k := by
  unfold dictGet
  rw [List.find?_cons_of_neg]
  simp [h]

theorem keys_enumPaths (l : List (List Int)) :
    ∀ k : Nat,
      (((enumFrom k l).map (fun (ip : Nat × List Int) => (ip.2, (ip.1 : Int)))).map
        Prod.fst) = l := by
  induction l with
  | nil => intro k; rfl
  | cons a tl ih => intro k; simp only [enumFrom_cons, List.map_cons, ih (k + 1)]

theorem dictGet_enumPaths (l : List (List Int)) (hnd : l.Nodup) :
    ∀ (k i : Nat) (h : i < l.length),
      dictGet ((enumFrom k l).map (fun (ip : Nat × List Int) => (ip.2, (ip.1 : Int))))
        (l.get ⟨i, h⟩) = some ((k + i : Nat) : Int) := by
  induction l with
  | nil => intro k i h; simp at h
  | cons a tl ih =>
    intro k i h
    cases i with
    | zero =>
      unfold dictGet
      rw [enumFrom_cons, List.map_cons, List.find?_cons_of_pos _ (by simp)]
      simp
    | succ iv =>
      have hiv : iv < tl.length := by simpa using h
      have hne : a ≠ tl.get ⟨iv, hiv⟩ := by
        intro he
        have hmem : a ∈ tl := by rw [he]; exact List.get_mem tl iv hiv
        exact (List.nodup_cons.mp hnd).1 hmem
      rw [enumFrom_cons, List.map_cons]
      have hget : (a :: tl).get ⟨iv + 1, h⟩ = tl.get ⟨iv, hiv⟩ := rfl
      rw [hget, dictGet_cons_of_ne (by simpa using hne)]
      have := ih (List.nodup_cons.mp hnd).2 (k + 1) iv hiv
      rw [this]
      congr 1
      push_cast
      ring

theorem dictGet_enumDecode (l : List (List Int)) :
    ∀ (k i : Nat) (h : i < l.length),
      dictGet ((enumFrom k l).map (fun (ip : Nat × List Int) => ((ip.1 : Int), ip.2)))
        ((k + i : Nat) : Int) = some (l.get ⟨i, h⟩) := by
  induction l with
  | nil => intro k i h; simp at h
  | cons a tl ih =>
    intro k i h
    cases i with
    | zero =>
      unfold dictGet
      rw [enumFrom_cons, List.map_cons, List.find?_cons_of_pos _ (by simp)]
      simp
    | succ iv =>
      have hiv : iv < tl.length := by simpa using h
      rw [enumFrom_cons, List.map_cons, dictGet_cons_of_ne (by simp; omega)]
      have e : ((k + (iv + 1) : Nat) : Int) = ((k + 1 + iv : Nat) : Int) := by
        push_cast; ring
      rw [e, ih (k + 1) iv hiv]
      rfl

theorem mem_keys_enumDecode (l : List (List Int)) :
    ∀ (k : Nat) (j : Int),
      j ∈ ((enumFrom k l).map (fun (ip : Nat × List Int) => ((ip.1 : Int), ip.2))).map
          Prod.fst ↔
        (k : Int) ≤ j ∧ j < (k : Int) + l.length := by
  induction l with
  | nil =>
    intro k j
    simp only [enumFrom, List.map_nil, List.not_mem_nil, List.length_nil]
    constructor
    · intro h; exact absurd h (by simp)
    · intro h; push_cast at h; omega
  | cons a tl ih =>
    intro k j
    rw [enumFrom_cons]
    simp only [List.map_cons, List.mem_cons, ih (k + 1) j, List.length_cons]
    push_cast
    omega

theorem nodup_keys_enumDecode (l : List (List Int)) :
    ∀ k : Nat,
      ((((enumFrom k l).map (fun (ip : Nat × List Int) => ((ip.1 : Int), ip.2))).map
        Prod.fst)).Nodup := by
  induction l with
  | nil => intro k; simp [enumFrom]
  | cons a tl ih =>
    intro k
    rw [enumFrom_cons]
    simp only [List.map_cons, List.nodup_cons]
    constructor
    · rw [mem_keys_enumDecode]
      push_cast
      omega
    · exact ih (k + 1)

theorem nodup_pyProduct : ∀ {ls : List (List Int)},
    (∀ xs ∈ ls, xs.Nodup) → (pyProduct ls).Nodup
  | [], _ => by simp [pyProduct]
  | xs :: rest, h => by
    rw [pyProduct, List.nodup_flatMap]
    constructor
    · intro x _
      exact List.Nodup.map List.cons_injective
        (nodup_pyProduct (fun ys hys => h ys (List.mem_cons_of_mem xs hys)))
    · have hxs := h xs (List.mem_cons_self xs rest)
      refine hxs.imp ?_
      intro a b hab
      intro p hp1 hp2
      rw [List.mem_map] at hp1 hp2
      obtain ⟨q1, _, he1⟩ := hp1
      obtain ⟨q2, _, he2⟩ := hp2
      rw [← he2] at he1
      injection he1 with hhead _
      exact hab hhead

theorem tblFull_nodup (J : Int) (Qs : List Int) (r : Nat) : (tblFull J Qs r).Nodup := by
  unfold tblFull
  apply List.Nodup.filter
  apply nodup_pyProduct
  intro xs hxs
  unfold rangesOf at hxs
  rw [List.mem_map] at hxs
  obtain ⟨o, _, he⟩ := hxs
  rw [← he]
  exact nodup_intRange _

theorem sc_paths_eq (J : Int) (Qs : List Int) (r_max : Int)
    (L : List (List (List Int)))
    (hQ : r_max.toNat ≤ Qs.length) (hpos : ∀ q ∈ Qs, 0 < q)
    (hL : create_sc_paths J Qs r_max = some L) :
    L = (List.range r_max.toNat).map (fun i => tblFull J Qs (i + 1)) := by
  have hall : ∀ i ∈ List.range r_max.toNat,
      create_sc_paths_r J Qs r_max (i + 1) = some (tblFull J Qs (i + 1)) := by
    intro i hi
    rw [List.mem_range] at hi
    exact create_sc_paths_r_eq J Qs r_max (i + 1) (by omega) (by omega) hpos
  have h2 := mapOpt_eq_some_map hall
  unfold create_sc_paths at hL
  rw [h2] at hL
  exact (Option.some_inj.mp hL).symm

theorem flatten_nodup (J : Int) (Qs : List Int) (r_max : Int)
    (L : List (List (List Int)))
    (hQ : r_max.toNat ≤ Qs.length) (hpos : ∀ q ∈ Qs, 0 < q)
    (hL : create_sc_paths J Qs r_max = some L) :
    L.flatten.Nodup := by
  rw [sc_paths_eq J Qs r_max L hQ hpos hL, List.nodup_flatten]
  constructor
  · intro tbl htbl
    rw [List.mem_map] at htbl
    obtain ⟨i, _, he⟩ := htbl
    rw [← he]
    exact tblFull_nodup J Qs (i + 1)
  · rw [List.pairwise_map]
    refine (List.pairwise_lt_range r_max.toNat).imp ?_
    intro a b hab
    intro p hp1 hp2
    have l1 := ((mem_tblFull J Qs (a + 1) p).mp hp1).1
    have l2 := ((mem_tblFull J Qs (b + 1) p).mp hp2).1
    omega

theorem nil_not_mem_flatten (J : Int) (Qs : List Int) (r_max : Int)
    (L : List (List (List Int)))
    (hQ : r_max.toNat ≤ Qs.length) (hpos : ∀ q ∈ Qs, 0 < q)
    (hL : create_sc_paths J Qs r_max = some L) :
    [] ∉ L.flatten := by
  intro hmem
  rw [sc_paths_eq J Qs r_max L hQ hpos hL, List.mem_flatten] at hmem
  obtain ⟨tbl, htbl, hp⟩ := hmem
  rw [List.mem_map] at htbl
  obtain ⟨i, _, he⟩ := htbl
  rw [← he] at hp
  have := ((mem_tblFull J Qs (i + 1) []).mp hp).1
  simp at this

theorem dictInsert_of_not_mem [DecidableEq α] {d : List (α × β)} {k : α} (v : β)
    (h : k ∉ d.map Prod.fst) : dictInsert d k v = d ++ [(k, v)] := by
  have hany : d.any (fun kv => decide (kv.1 = k)) = false := by
    rw [List.any_eq_false]
    intro kv hkv
    simp only [decide_eq_true_eq]
    intro he
    exact h (List.mem_map.mpr ⟨kv, hkv, he⟩)
  unfold dictInsert
  rw [hany]
  simp

theorem dictOfList_append [DecidableEq α] :
    ∀ (kvs init : List (α × β)),
      (kvs.map Prod.fst).Nodup →
      (∀ k ∈ kvs.map Prod.fst, k ∉ init.map Prod.fst) →
      dictOfList init kvs = init ++ kvs
  | [], init, _, _ => by simp [dictOfList]
  | kv :: rest, init, hnd, hdisj => by
    have h1 : dictInsert init kv.1 kv.2 = init ++ [(kv.1, kv.2)] :=
      dictInsert_of_not_mem kv.2 (hdisj kv.1 (by simp))
    have hstep : dictOfList init (kv :: rest) =
        dictOfList (dictInsert init kv.1 kv.2) rest := rfl
    have hnd' : (rest.map Prod.fst).Nodup := by
      rw [List.map_cons, List.nodup_cons] at hnd
      exact hnd.2
    have hkv1 : kv.1 ∉ rest.map Prod.fst := by
      rw [List.map_cons, List.nodup_cons] at hnd
      exact hnd.1
    have hdisj' : ∀ k ∈ rest.map Prod.fst,
        k ∉ (init ++ [(kv.1, kv.2)]).map Prod.fst := by
      intro k hk
      rw [List.map_append, List.mem_append]
      rintro (hin | hone)
      · exact hdisj k (by simp [hk]) hin
      · simp at hone
        exact hkv1 (hone ▸ hk)
    rw [hstep, h1, dictOfList_append rest (init ++ [(kv.1, kv.2)]) hnd' hdisj']
    simp

theorem coding_eq (L : List (List (List Int)))
    (hnd : L.flatten.Nodup) (hne : [] ∉ L.flatten) :
    (construct_path_coding_dicts L).1 =
      ([], 0) :: (enumFrom 0 L.flatten).map
        (fun (ip : Nat × List Int) => (ip.2, (ip.1 : Int))) := by
  show dictOfList [([], 0)] _ = _
  rw [dictOfList_append]
  · rfl
  · rw [keys_enumPaths]
    exact hnd
  · intro k hk
    rw [keys_enumPaths] at hk
    intro hinit
    simp at hinit
    exact hne (hinit ▸ hk)

theorem decoding_eq (L : List (List (List Int)))
    (hnd : L.flatten.Nodup) (hne : [] ∉ L.flatten) (hfl : L.flatten ≠ []) :
    (construct_path_coding_dicts L).2 =
      (enumFrom 0 L.flatten).map (fun (ip : Nat × List Int) => ((ip.1 : Int), ip.2)) := by
  have hswap : (construct_path_coding_dicts L).1.map (fun kv => (kv.2, kv.1)) =
      (0, ([] : List Int)) :: (enumFrom 0 L.flatten).map
        (fun (ip : Nat × List Int) => ((ip.1 : Int), ip.2)) := by
    rw [coding_eq L hnd hne]
    simp [List.map_map, Function.comp]
  have hd : (construct_path_coding_dicts L).2 =
      dictOfList [] ((construct_path_coding_dicts L).1.map (fun kv => (kv.2, kv.1))) := rfl
  rw [hd, hswap]
  obtain ⟨c, restl, hrl⟩ : ∃ c restl, L.flatten = c :: restl := by
    cases hc : L.flatten with
    | nil => exact absurd hc hfl
    | cons c restl => exact ⟨c, restl, rfl⟩
  rw [hrl, enumFrom_cons, List.map_cons]
  have s1 : dictOfList ([] : List (Int × List Int))
      ((0, ([] : List Int)) :: (((0 : Nat) : Int), c) ::
        (enumFrom 1 restl).map (fun (ip : Nat × List Int) => ((ip.1 : Int), ip.2))) =
      dictOfList [(((0 : Nat) : Int), c)]
        ((enumFrom 1 restl).map (fun (ip : Nat × List Int) => ((ip.1 : Int), ip.2))) := by
    show dictOfList (dictInsert (dictInsert [] 0 []) (((0 : Nat) : Int)) c) _ =
      dictOfList [(((0 : Nat) : Int), c)] _
    congr 1
  have hdisj2 : ∀ k ∈ ((enumFrom 1 restl).map
        (fun (ip : Nat × List Int) => ((ip.1 : Int), ip.2))).map Prod.fst,
      k ∉ ([(((0 : Nat) : Int), c)]).map Prod.fst := by
    intro k hk
    rw [mem_keys_enumDecode] at hk
    intro hinit
    simp at hinit
    omega
  rw [s1, dictOfList_append _ _ (nodup_keys_enumDecode restl 1) hdisj2]
  simp

theorem getLast?_eq_some_getD {p : List Int} (h : p ≠ []) :
    p.getLast? = some (p.getD (p.length - 1) 0) := by
  have hlt : p.length - 1 < p.length := by
    cases p with
    | nil => exact absurd rfl h
    | cons a as => simp
  rw [List.getLast?_eq_getElem? p, List.getElem?_eq_getElem hlt,
    List.getD_eq_getElem?_getD, List.getElem?_eq_getElem hlt]
  rfl

/-- C6: for every admissible enumerated path p of order k (in any
configuration with positive densities and enough density entries),
`is_low_pass(path_to_idx(p))` returns exactly whether the last coordinate of
p equals `J * Qs[k-1]`, the low-pass sentinel `JQ(k)`. -/
theorem claim6_low_pass_correct (J : Int) (Qs : List Int) (r_max : Int)
    (L : List (List (List Int)))
    (hpos : ∀ q ∈ Qs, 0 < q) (hQ : r_max.toNat ≤ Qs.length)
    (hL : create_sc_paths J Qs r_max = some L)
    (k : Nat) (hk1 : 1 ≤ k) (hk2 : (k : Int) ≤ r_max)
    (p : List Int) (hp : p ∈ L.getD (k - 1) []) :
    ∃ i : Int,
      path_to_idx (construct_path_coding_dicts L).1 p = some i ∧
      is_low_pass J Qs (construct_path_coding_dicts L).2 i =
        some (decide (p.getLastD 0 = J * Qs.getD (k - 1) 0)) := by
  have hLs := sc_paths_eq J Qs r_max L hQ hpos hL
  have hkn : k - 1 < r_max.toNat := by omega
  have hLk : L.getD (k - 1) [] = tblFull J Qs k := by
    rw [hLs, List.getD_eq_getElem?_getD,
      List.getElem?_eq_getElem (by simpa using hkn)]
    simp only [List.getElem_map, List.getElem_range, Option.getD_some]
    congr 1
    omega
  rw [hLk] at hp
  have hchar := (mem_tblFull J Qs k p).mp hp
  have hlen : p.length = k := hchar.1
  have hpne : p ≠ [] := by
    intro he
    rw [he] at hlen
    simp at hlen
    omega
  have hfl_mem : p ∈ L.flatten := by
    rw [List.mem_flatten]
    refine ⟨tblFull J Qs k, ?_, hp⟩
    rw [hLs, List.mem_map]
    exact ⟨k - 1, by rw [List.mem_range]; omega, by congr 1; omega⟩
  have hnd := flatten_nodup J Qs r_max L hQ hpos hL
  have hnil := nil_not_mem_flatten J Qs r_max L hQ hpos hL
  have hfl : L.flatten ≠ [] := by
    intro he
    rw [he] at hfl_mem
    simp at hfl_mem
  obtain ⟨⟨i, hilt⟩, hi⟩ := List.mem_iff_get.mp hfl_mem
  have hlast : p.getLast? = some (p.getD (k - 1) 0) := by
    rw [getLast?_eq_some_getD hpne, hlen]
  have hbnd := hchar.2.1 (k - 1) (by omega)
  have htr : truncate_sentinel p = p := by
    unfold truncate_sentinel
    rw [if_neg]
    rintro ⟨h1, h2⟩
    rw [hlast] at h2
    have := Option.some_inj.mp h2
    omega
  have hget_cod : dictGet (construct_path_coding_dicts L).1 p = some ((i : Nat) : Int) := by
    rw [coding_eq L hnd hnil, dictGet_cons_of_ne (Ne.symm hpne)]
    have h3 := dictGet_enumPaths L.flatten hnd 0 i hilt
    rw [hi] at h3
    simpa using h3
  have hget_dec : dictGet (construct_path_coding_dicts L).2 ((i : Nat) : Int) = some p := by
    rw [decoding_eq L hnd hnil hfl]
    have h4 := dictGet_enumDecode L.flatten 0 i hilt
    rw [hi] at h4
    simpa using h4
  have hitp : idx_to_path (construct_path_coding_dicts L).2 ((i : Nat) : Int) = some p := by
    unfold idx_to_path
    rw [if_neg (by omega), hget_dec]
  have hr_eval : r (construct_path_coding_dicts L).2 ((i : Nat) : Int) =
      some ((k : Nat) : Int) := by
    unfold r
    rw [hitp]
    simp [hlen]
  have hk1Q : k - 1 < Qs.length := by omega
  have hjq : JQ J Qs ((k : Nat) : Int) = some (J * Qs.getD (k - 1) 0) := by
    unfold JQ
    have e : ((k : Nat) : Int) - 1 = ((k - 1 : Nat) : Int) := by omega
    rw [e, pyGet_natCast, get?_eq_some_getD 0 hk1Q]
    rfl
  refine ⟨((i : Nat) : Int), ?_, ?_⟩
  · unfold path_to_idx
    rw [htr]
    exact hget_cod
  · have hstep : is_low_pass J Qs (construct_path_coding_dicts L).2 ((i : Nat) : Int) =
        (idx_to_path (construct_path_coding_dicts L).2 ((i : Nat) : Int)).bind (fun p0 =>
          p0.getLast?.bind (fun last =>
            (r (construct_path_coding_dicts L).2 ((i : Nat) : Int)).bind (fun rr =>
              (JQ J Qs rr).bind (fun jq => some (decide (last ≥ jq)))))) := rfl
    rw [hstep, hitp, Option.some_bind, hlast, Option.some_bind, hr_eval,
      Option.some_bind, hjq, Option.some_bind]
    have hlastD : p.getLastD 0 = p.getD (k - 1) 0 := by
      rw [List.getLastD_eq_getLast?, hlast]
      rfl
    rw [hlastD]
    congr 1
    rw [decide_eq_decide]
    constructor
    · intro hge
      omega
    · intro heq
      omega

/-- C6 witness at `J = 3, Qs = [1], r_max = 1` with the low-pass path `(3,)`. -/
theorem claim6_witness :
    (∀ q ∈ [(1 : Int)], 0 < q) ∧ (1 : Int).toNat ≤ List.length [(1 : Int)] ∧
    create_sc_paths 3 [1] 1 = some [[[0], [1], [2], [3]]] ∧
    1 ≤ 1 ∧ ((1 : Nat) : Int) ≤ 1 ∧
    [(3 : Int)] ∈ ([[[0], [1], [2], [3]]] : List (List (List Int))).getD (1 - 1) [] ∧
    (∃ i : Int,
      path_to_idx (construct_path_coding_dicts [[[0], [1], [2], [3]]]).1 [3] = some i ∧
      is_low_pass 3 [1] (construct_path_coding_dicts [[[0], [1], [2], [3]]]).2 i =
        some (decide (List.getLastD [(3 : Int)] 0 = 3 * List.getD [(1 : Int)] (1 - 1) 0))) :=
  ⟨by decide, by decide, by decide, le_refl 1, by decide, by decide,
    claim6_low_pass_correct 3 [1] 1 [[[0], [1], [2], [3]]] (by decide) (by decide)
      (by decide) 1 (by decide) (by decide) [3] (by decide)⟩

/-- C7: `path_to_idx` fails with KeyError exactly when the sentinel-truncated
query is outside the set of keys the construction enumerated (the empty path
plus all chained admissible paths), and `idx_to_path` fails with KeyError
exactly for indices other than -1 outside the assigned range `0..n-1`;
neither failure is recovered internally (`none` propagates). -/
theorem claim7_key_not_found (J : Int) (Qs : List Int) (r_max : Int)
    (L : List (List (List Int)))
    (hpos : ∀ q ∈ Qs, 0 < q) (hQ : r_max.toNat ≤ Qs.length)
    (hL : create_sc_paths J Qs r_max = some L) (hfl : L.flatten ≠ [])
    (q : List Int) (i : Int) :
    (path_to_idx (construct_path_coding_dicts L).1 q = none ↔
      truncate_sentinel q ∉ ([] :: L.flatten)) ∧
    (idx_to_path (construct_path_coding_dicts L).2 i = none ↔
      i ≠ -1 ∧ ¬(0 ≤ i ∧ i < (L.flatten.length : Int))) := by
  have hnd := flatten_nodup J Qs r_max L hQ hpos hL
  have hnil := nil_not_mem_flatten J Qs r_max L hQ hpos hL
  constructor
  · unfold path_to_idx
    rw [dictGet_eq_none_iff, coding_eq L hnd hnil, List.map_cons, keys_enumPaths]
  · unfold idx_to_path
    by_cases hi : i = -1
    · rw [if_pos hi]
      simp [hi]
    · rw [if_neg hi]
      rw [dictGet_eq_none_iff, decoding_eq L hnd hnil hfl]
      constructor
      · intro h
        refine ⟨hi, ?_⟩
        rw [mem_keys_enumDecode] at h
        push_cast at h
        omega
      · rintro ⟨_, h⟩
        rw [mem_keys_enumDecode]
        push_cast
        omega

/-- C7 witness at `J = 3, Qs = [1], r_max = 1` with the out-of-range query
path `(5,)` (5 exceeds `JQ(1) = 3`) and the unassigned index 10; the last two
conjuncts evaluate both failures concretely. -/
theorem claim7_witness :
    (∀ q ∈ [(1 : Int)], 0 < q) ∧ (1 : Int).toNat ≤ List.length [(1 : Int)] ∧
    create_sc_paths 3 [1] 1 = some [[[0], [1], [2], [3]]] ∧
    ([[[0], [1], [2], [3]]] : List (List (List Int))).flatten ≠ [] ∧
    ((path_to_idx (construct_path_coding_dicts [[[0], [1], [2], [3]]]).1 [5] = none ↔
        truncate_sentinel [5] ∉
          ([] :: ([[[0], [1], [2], [3]]] : List (List (List Int))).flatten)) ∧
      (idx_to_path (construct_path_coding_dicts [[[0], [1], [2], [3]]]).2 10 = none ↔
        (10 : Int) ≠ -1 ∧ ¬((0 : Int) ≤ 10 ∧ (10 : Int) <
          ((([[[0], [1], [2], [3]]] : List (List (List Int))).flatten.length : Nat) : Int)))) ∧
    path_to_idx (construct_path_coding_dicts [[[0], [1], [2], [3]]]).1 [5] = none ∧
    idx_to_path (construct_path_coding_dicts [[[0], [1], [2], [3]]]).2 10 = none :=
  ⟨by decide, by decide, by decide, by decide,
    claim7_key_not_found 3 [1] 1 [[[0], [1], [2], [3]]] (by decide) (by decide) rfl
      (by decide) [5] 10,
    by decide, by decide⟩

end ScaleIndexer
